import Mathlib

/-!
# MyPrime: recursive radix-2 FFT stress test — verification development

Shallow embedding of `src/main.cpp`.

* `std::vector<T>` is a `List T`; every `v[i]` read or write of the source is a
  checked access (`readAt` / `writeAt`) that yields `none` when the index is
  outside the vector, so an out-of-bounds access shows up as a `none` result.
* `std::complex<double>` is an arbitrary field `K`; the two library operations the
  transform needs (`std::polar(1.0, -2*pi*k/N)` and `std::conj`) are arguments of
  the embedding.  Over the exact complex numbers they are `twiddle` and complex
  conjugation.
* `uint64_t` and `int` values are natural numbers / integers with explicit
  reduction modulo `2^64` / `2^32`.
-/

namespace MyPrime

/-! ## Vectors with checked access -/

/-- Checked read `v[i]`: `none` when `i` is out of bounds. -/
def readAt {α : Type} (v : List α) (i : Nat) : Option α :=
  v[i]?

/-- Checked write `v[i] = a`: `none` when `i` is out of bounds. -/
def writeAt {α : Type} (v : List α) (i : Nat) (a : α) : Option (List α) :=
  if i < v.length then some (v.set i a) else none

/-- The loop `for (size_t i = 0; i < n; i++) body(i)` over a state `σ`; the
body may fail. Iterations `0 .. n-1` are executed in increasing order. -/
def forRange {σ : Type} (body : Nat → σ → Option σ) : Nat → σ → Option σ
  | 0, s => some s
  | n + 1, s => (forRange body n s).bind (body n)

/-! ## Transform engine -/

section Transform

variable {K : Type} [Field K]

/-- Body of the "Divide" loop of `fft` (lines 30-33):
`even[i] = x[i*2]; odd[i] = x[i*2+1];`. -/
def divideStep (x : List K) (i : Nat) (eo : List K × List K) : Option (List K × List K) := do
  let a ← readAt x (i * 2)
  let even ← writeAt eo.1 i a
  let b ← readAt x (i * 2 + 1)
  let odd ← writeAt eo.2 i b
  pure (even, odd)

/-- Lines 29-33 of `fft`: two zero-initialised vectors of size `N/2` filled with
the even-indexed and the odd-indexed samples. -/
def divide (x : List K) : Option (List K × List K) :=
  forRange (divideStep x) (x.length / 2)
    (List.replicate (x.length / 2) 0, List.replicate (x.length / 2) 0)

/-- Body of the "Combina" loop of `fft` (lines 40-44), with `tw k N` standing for
`std::polar(1.0, -2 * pi * k / N)`. -/
def combineStep (tw : Nat → Nat → K) (N : Nat) (even odd : List K) (k : Nat) (x : List K) :
    Option (List K) := do
  let o ← readAt odd k
  let t := tw k N * o
  let e ← readAt even k
  let x ← writeAt x k (e + t)
  let e ← readAt even k
  writeAt x (k + N / 2) (e - t)

/-- The recursive function `fft` (lines 24-45); `fuel` bounds the recursion depth. -/
def fftFuel (tw : Nat → Nat → K) : Nat → List K → Option (List K)
  | 0, _ => none
  | fuel + 1, x =>
    if x.length ≤ 1 then some x
    else do
      let (even, odd) ← divide x
      let even ← fftFuel tw fuel even
      let odd ← fftFuel tw fuel odd
      forRange (combineStep tw x.length even odd) (x.length / 2) x

/-- The function `fft` with enough fuel for any input (the recursion depth never
exceeds the length of the input plus one). -/
def fft (tw : Nat → Nat → K) (x : List K) : Option (List K) :=
  fftFuel tw (x.length + 1) x

/-- The function `ifft` (lines 48-61): conjugate, transform, conjugate and divide
by `x.size()`. -/
def ifft (tw : Nat → Nat → K) (conj : K → K) (x : List K) : Option (List K) := do
  let x := x.map conj
  let x ← fft tw x
  pure (x.map (fun val => conj val / (x.length : K)))

/-- The sizes `x.size()` seen by every invocation of `fft` in the call tree rooted
at `fft(x)`, in call order (the recursive calls receive the vectors `even` and
`odd` built by the divide loop). -/
def fftCallSizes : Nat → List K → Option (List Nat)
  | 0, _ => none
  | fuel + 1, x =>
    if x.length ≤ 1 then some [x.length]
    else do
      let (even, odd) ← divide x
      let l1 ← fftCallSizes fuel even
      let l2 ← fftCallSizes fuel odd
      pure (x.length :: (l1 ++ l2))

/-- The function `generate_test_data` (lines 64-70); `sample i` stands for
`std::complex<double>(std::sin(i * 0.1), std::cos(i * 0.1))`. -/
def generate_test_data (sample : Nat → K) (size : Nat) : Option (List K) :=
  forRange (fun i data => writeAt data i (sample i)) size (List.replicate size 0)

end Transform

/-! ## Tabulated vectors (used to describe the result of the loops) -/

/-- The vector of length `n` whose `i`-th entry is `f i`. -/
def tab {α : Type} (n : Nat) (f : Nat → α) : List α :=
  (List.range n).map f

/-! ## The exact complex instance -/

/-- The library function `std::polar(rho, theta)` over the exact complex numbers:
the number with real part `rho * cos theta` and imaginary part `rho * sin theta`. -/
noncomputable def polar (rho theta : ℝ) : ℂ :=
  ⟨rho * Real.cos theta, rho * Real.sin theta⟩

/-- The twiddle factor of line 41, `std::polar(1.0, -2 * std::numbers::pi * k / N)`,
over the exact complex numbers. -/
noncomputable def twiddle (k N : Nat) : ℂ :=
  polar 1 (-2 * Real.pi * k / N)

/-- The root of unity `exp(-2 pi i / N)`. -/
noncomputable def omega (N : Nat) : ℂ :=
  Complex.exp (-2 * Real.pi * Complex.I / N)

/-- The library function `std::conj` over the exact complex numbers. -/
def conj (z : ℂ) : ℂ :=
  ⟨z.re, -z.im⟩

/-! ## Harness: the size menu -/

/-- Conversion of an `int` to `size_t` (64-bit unsigned): reduction modulo `2^64`. -/
def toSizeT (v : Int) : Nat :=
  (v % 2 ^ 64).toNat

/-- The menu `fft_sizes` of `main` (line 211). -/
def fft_sizes : List Int :=
  [8, 16, 32, 64, 128, 256, 512, 1024]

/-- Line 215 of `main`: `int fft_size = fft_sizes[i % fft_sizes.size()];` (the
`int` index `i` is converted to `size_t` by the mixed-type `%`). -/
def fft_size_of_worker (i : Int) : Option Int :=
  readAt fft_sizes (toSizeT i % fft_sizes.length)

/-- Lines 111-117 of `stress_test_worker`: one round trip on fresh test data,
`auto data = generate_test_data(fft_size); fft(data); ifft(data);`. -/
def round_trip {K : Type} [Field K] (tw : Nat → Nat → K) (cj : K → K) (sample : Nat → K)
    (fft_size : Int) : Option (List K) := do
  let data ← generate_test_data sample (toSizeT fft_size)
  let data ← fft tw data
  ifft tw cj data

/-! ## Worker loop, cancellation flag and shared counter -/

/-- Program points of `stress_test_worker` (lines 107-129). -/
inductive WorkerPc
  /-- about to evaluate the loop condition `while (g_running)` (line 110) -/
  | loopHead
  /-- inside the body, about to run `generate_test_data`, `fft`, `ifft` (lines 111-117) -/
  | roundTrip
  /-- about to execute `local_iterations++` (line 120) -/
  | increment
  /-- about to execute `if (local_iterations % 10 == 0) g_total_iterations += 10;` -/
  | batchCheck
  /-- loop left, about to execute `g_total_iterations += (local_iterations % 10)` (line 129) -/
  | finalFlush
  /-- past line 129 -/
  | finished
  deriving DecidableEq, Repr

/-- State of one worker thread. `thread_id`, `fft_size` and `local_iterations`
are the variables of `stress_test_worker`; `round_trips` and `added` are ghost
counters (unbounded): the number of completed forward+inverse transforms and the
total amount this worker has added to `g_total_iterations`. -/
structure Worker where
  thread_id : Int
  fft_size : Int
  pc : WorkerPc
  local_iterations : Nat
  round_trips : Nat
  added : Nat
  deriving DecidableEq, Repr

/-- A worker as created by `threads.emplace_back(stress_test_worker, i, fft_size)`:
`local_iterations = 0`, about to test the loop condition. -/
def newWorker (thread_id fft_size : Int) : Worker :=
  { thread_id := thread_id, fft_size := fft_size, pc := WorkerPc.loopHead,
    local_iterations := 0, round_trips := 0, added := 0 }

/-- One statement of `stress_test_worker`, given the current values of `g_running`
and `g_total_iterations`; returns the new value of `g_total_iterations` and the new
worker state. `uint64_t` arithmetic is modulo `2^64`. The transforms of the
`roundTrip` step (`round_trip`) work on thread-local data that is discarded, and
always return, so that step only advances the program point and counts the round
trip. -/
def stress_test_worker_step (g_running : Bool) (g_total_iterations : Nat) (w : Worker) :
    Nat × Worker :=
  match w.pc with
  | WorkerPc.loopHead =>
    if g_running then (g_total_iterations, { w with pc := WorkerPc.roundTrip })
    else (g_total_iterations, { w with pc := WorkerPc.finalFlush })
  | WorkerPc.roundTrip =>
    (g_total_iterations, { w with pc := WorkerPc.increment, round_trips := w.round_trips + 1 })
  | WorkerPc.increment =>
    (g_total_iterations,
      { w with pc := WorkerPc.batchCheck,
               local_iterations := (w.local_iterations + 1) % 2 ^ 64 })
  | WorkerPc.batchCheck =>
    if w.local_iterations % 10 = 0 then
      ((g_total_iterations + 10) % 2 ^ 64,
        { w with pc := WorkerPc.loopHead, added := w.added + 10 })
    else (g_total_iterations, { w with pc := WorkerPc.loopHead })
  | WorkerPc.finalFlush =>
    ((g_total_iterations + w.local_iterations % 10) % 2 ^ 64,
      { w with pc := WorkerPc.finished, added := w.added + w.local_iterations % 10 })
  | WorkerPc.finished => (g_total_iterations, w)

/-- Program points of the reporter thread `display_stats` (lines 146-159). -/
inductive ReporterPc
  /-- about to evaluate `while (g_running)` -/
  | loopHead
  /-- in the body: sleeping, then sampling the counter and printing -/
  | sampling
  /-- loop left -/
  | finished
  deriving DecidableEq, Repr

/-- The shared state of the process once the threads run: the two atomics
`g_running` and `g_total_iterations`, the worker threads, the reporter thread and
the list of counter values the reporter has printed (most recent first). -/
structure State where
  g_running : Bool
  g_total_iterations : Nat
  workers : List Worker
  reporter : ReporterPc
  reported : List Nat
  deriving DecidableEq, Repr

/-- The function `signal_handler` (lines 138-143); `SIGINT` and `SIGTERM` are the
platform's signal numbers from `<csignal>`. -/
def signal_handler (SIGINT SIGTERM : Int) (s : State) (signal : Int) : State :=
  if signal = SIGINT ∨ signal = SIGTERM then { s with g_running := false } else s

/-- One loop step of `display_stats`: test the flag, or sample the counter. -/
def display_stats_step (s : State) : State :=
  match s.reporter with
  | ReporterPc.loopHead =>
    if s.g_running then { s with reporter := ReporterPc.sampling }
    else { s with reporter := ReporterPc.finished }
  | ReporterPc.sampling =>
    { s with reporter := ReporterPc.loopHead, reported := s.g_total_iterations :: s.reported }
  | ReporterPc.finished => s

/-- What can happen next in the running process. -/
inductive Event
  /-- the function `signal_handler` is called with the given signal number -/
  | signal (signum : Int)
  /-- the worker thread with the given position in `threads` executes one statement -/
  | worker (i : Nat)
  /-- the reporter thread executes one step -/
  | reporter
  deriving DecidableEq, Repr

/-- The step function of the process. -/
def step (SIGINT SIGTERM : Int) (s : State) : Event → State
  | Event.signal signum => signal_handler SIGINT SIGTERM s signum
  | Event.worker i =>
    match s.workers[i]? with
    | none => s
    | some w =>
      { s with
          g_total_iterations :=
            (stress_test_worker_step s.g_running s.g_total_iterations w).1,
          workers :=
            s.workers.set i (stress_test_worker_step s.g_running s.g_total_iterations w).2 }
  | Event.reporter => display_stats_step s

/-- The state reached after a sequence of events. -/
def run (SIGINT SIGTERM : Int) (s : State) (evs : List Event) : State :=
  evs.foldl (step SIGINT SIGTERM) s

/-! ## Start-up (`main`) -/

/-- Conversion of an `unsigned int` to `int` (32 bits, two's complement), as in
`int max_threads = std::thread::hardware_concurrency();`. -/
def toInt (u : Nat) : Int :=
  if u % 2 ^ 32 < 2 ^ 31 then ((u % 2 ^ 32 : Nat) : Int)
  else ((u % 2 ^ 32 : Nat) : Int) - 2 ^ 32

/-- Lines 179-185 of `main`: the clamp of the requested count to
`std::thread::hardware_concurrency()`. -/
def clamp_threads (num_threads : Int) (hardware_concurrency : Nat) : Int :=
  let max_threads := toInt hardware_concurrency
  if num_threads > max_threads then max_threads else num_threads

/-- Lines 213-217 of `main`: the loop `for (int i = 0; i < num_threads; i++)` that
starts the workers. The result is the vector `threads`. -/
def start_workers (num_threads : Int) : Option (List Worker) :=
  forRange (fun i threads => do
      let fft_size ← fft_size_of_worker (i : Int)
      pure (threads ++ [newWorker (i : Int) fft_size]))
    num_threads.toNat []

/-- How `main` ends its start-up phase. -/
inductive Startup
  /-- exit with `return 1` after the usage message (non-positive count) -/
  | usageError
  /-- exit with `return 1` after a failed self-verification -/
  | verificationFailed
  /-- an out-of-bounds access to `fft_sizes` -/
  | outOfBounds
  /-- the worker threads have been started -/
  | started (threads : List Worker)
  deriving DecidableEq, Repr

/-- The function `main` from the parsed argument on (lines 172-217).
`num_threads` is the value returned by `std::stoi`, `hardware_concurrency` the
value returned by `std::thread::hardware_concurrency()` and `verify_ok` the value
returned by `verify_fft_implementation()`. -/
def main (num_threads : Int) (hardware_concurrency : Nat) (verify_ok : Bool) : Startup :=
  if num_threads ≤ 0 then Startup.usageError
  else
    let num_threads := clamp_threads num_threads hardware_concurrency
    if !verify_ok then Startup.verificationFailed
    else
      match start_workers num_threads with
      | none => Startup.outOfBounds
      | some threads => Startup.started threads

/-- The state of the process when the threads start: flag set, counter zero. -/
def initState (threads : List Worker) : State :=
  { g_running := true, g_total_iterations := 0, workers := threads,
    reporter := ReporterPc.loopHead, reported := [] }

/-- Sum of the `local_iterations` of the workers. -/
def sumLocal (ws : List Worker) : Nat :=
  (ws.map Worker.local_iterations).sum

/-- Sum of the completed round trips of the workers. -/
def sumRoundTrips (ws : List Worker) : Nat :=
  (ws.map Worker.round_trips).sum

/-- Sum of the amounts the workers have added to the shared counter. -/
def sumAdded (ws : List Worker) : Nat :=
  (ws.map Worker.added).sum

/-! ## Invariants of the worker loop (used in the proofs) -/

/-- The relation between a worker's variables and its ghost counters at each
program point, valid while `local_iterations` has not wrapped around. -/
def WorkerInv (w : Worker) : Prop :=
  match w.pc with
  | WorkerPc.loopHead =>
    w.local_iterations = w.round_trips ∧ w.added + w.local_iterations % 10 = w.local_iterations
  | WorkerPc.roundTrip =>
    w.local_iterations = w.round_trips ∧ w.added + w.local_iterations % 10 = w.local_iterations
  | WorkerPc.increment =>
    w.local_iterations + 1 = w.round_trips ∧
      w.added + w.local_iterations % 10 = w.local_iterations
  | WorkerPc.batchCheck =>
    w.local_iterations = w.round_trips ∧ 1 ≤ w.local_iterations ∧
      w.added + (w.local_iterations - 1) % 10 = w.local_iterations - 1
  | WorkerPc.finalFlush =>
    w.local_iterations = w.round_trips ∧ w.added + w.local_iterations % 10 = w.local_iterations
  | WorkerPc.finished =>
    w.local_iterations = w.round_trips ∧ w.added = w.local_iterations

/-- The invariant of the running process: the shared counter is the sum of what
the workers have added, modulo `2^64`, and every worker that has completed fewer
than `2^64` round trips satisfies `WorkerInv`. -/
def StateInv (s : State) : Prop :=
  s.g_total_iterations = sumAdded s.workers % 2 ^ 64 ∧
    ∀ w ∈ s.workers, w.round_trips < 2 ^ 64 → WorkerInv w

/-- A worker that has not executed any statement yet. -/
def Fresh (w : Worker) : Prop :=
  w.pc = WorkerPc.loopHead ∧ w.local_iterations = 0 ∧ w.round_trips = 0 ∧ w.added = 0

/-- The state of a single-worker process (thread 0, size 8) at the loop head after
`n` iterations without wrap-around. -/
def loopState (n : Nat) : State :=
  { g_running := true, g_total_iterations := n - n % 10,
    workers := [{ thread_id := 0, fft_size := 8, pc := WorkerPc.loopHead,
                  local_iterations := n, round_trips := n, added := n - n % 10 }],
    reporter := ReporterPc.loopHead, reported := [] }

/-! # Proofs -/

section TabLemmas

variable {α : Type}

theorem length_tab (n : Nat) (f : Nat → α) : (tab n f).length = n := by
  simp [tab]

theorem getElem_opt_tab (n : Nat) (f : Nat → α) (i : Nat) :
    (tab n f)[i]? = if i < n then some (f i) else none := by
  unfold tab
  rw [List.getElem?_map]
  split
  · rename_i h
    rw [List.getElem?_range h]; rfl
  · rename_i h
    rw [List.getElem?_eq_none (by simpa using h)]; rfl

theorem getD_tab (n : Nat) (f : Nat → α) (i : Nat) (d : α) (h : i < n) :
    (tab n f).getD i d = f i := by
  rw [List.getD_eq_getElem?_getD, getElem_opt_tab, if_pos h]; rfl

theorem tab_congr {n : Nat} {f g : Nat → α} (h : ∀ i, i < n → f i = g i) :
    tab n f = tab n g := by
  apply List.ext_getElem?
  intro i
  simp only [getElem_opt_tab]
  split
  · rename_i hi
    rw [h i hi]
  · rfl

theorem set_tab (n : Nat) (f : Nat → α) (i : Nat) (a : α) :
    (tab n f).set i a = tab n (Function.update f i a) := by
  apply List.ext_getElem?
  intro j
  rw [List.getElem?_set, getElem_opt_tab, getElem_opt_tab, length_tab]
  by_cases hij : i = j
  · subst hij
    simp
  · have hji : j ≠ i := fun h => hij h.symm
    simp [hij, Function.update_noteq hji]

theorem eq_tab (x : List α) (d : α) : x = tab x.length (fun i => x.getD i d) := by
  apply List.ext_getElem?
  intro i
  rw [getElem_opt_tab]
  split
  · rename_i h
    rw [List.getElem?_eq_getElem h, List.getD_eq_getElem _ _ h]
  · rename_i h
    exact List.getElem?_eq_none (by omega)

theorem replicate_eq_tab (n : Nat) (a : α) : List.replicate n a = tab n (fun _ => a) := by
  apply List.ext_getElem?
  intro i
  rw [getElem_opt_tab, List.getElem?_replicate]

theorem readAt_tab {n : Nat} (f : Nat → α) {i : Nat} (h : i < n) :
    readAt (tab n f) i = some (f i) := by
  simp [readAt, getElem_opt_tab, h]

theorem readAt_of_lt (x : List α) (d : α) {i : Nat} (h : i < x.length) :
    readAt x i = some (x.getD i d) := by
  unfold readAt
  rw [List.getElem?_eq_getElem h, List.getD_eq_getElem _ _ h]

theorem writeAt_tab {n : Nat} (f : Nat → α) {i : Nat} (a : α) (h : i < n) :
    writeAt (tab n f) i a = some (tab n (Function.update f i a)) := by
  simp [writeAt, length_tab, h, set_tab]

end TabLemmas

section LoopLemmas

variable {K : Type} [Field K]

theorem divide_loop (x : List K) (h : Nat) (hh : 2 * h ≤ x.length) (n : Nat) (hn : n ≤ h) :
    forRange (divideStep x) n (tab h (fun _ => (0 : K)), tab h (fun _ => (0 : K))) =
      some (tab h (fun i => if i < n then x.getD (i * 2) 0 else 0),
            tab h (fun i => if i < n then x.getD (i * 2 + 1) 0 else 0)) := by
  induction n with
  | zero => simp [forRange]
  | succ n ih =>
    rw [forRange, ih (by omega)]
    simp only [Option.some_bind, divideStep]
    rw [readAt_of_lt x 0 (by omega : n * 2 < x.length),
      readAt_of_lt x 0 (by omega : n * 2 + 1 < x.length)]
    simp only [Option.bind_eq_bind, Option.some_bind]
    rw [writeAt_tab _ _ (by omega : n < h), writeAt_tab _ _ (by omega : n < h)]
    simp only [Option.some_bind, pure, Option.some.injEq, Prod.mk.injEq]
    constructor
    · apply tab_congr
      intro i _
      by_cases hi : i = n
      · subst hi; simp
      · rw [Function.update_noteq hi]
        have : (i < n + 1) ↔ (i < n) := by omega
        simp [this]
    · apply tab_congr
      intro i _
      by_cases hi : i = n
      · subst hi; simp
      · rw [Function.update_noteq hi]
        have : (i < n + 1) ↔ (i < n) := by omega
        simp [this]

/-- The even-indexed samples of `x`. -/
theorem divide_eq (x : List K) :
    divide x = some (tab (x.length / 2) (fun i => x.getD (i * 2) 0),
                     tab (x.length / 2) (fun i => x.getD (i * 2 + 1) 0)) := by
  unfold divide
  rw [replicate_eq_tab, divide_loop x (x.length / 2) (by omega) (x.length / 2) (le_refl _)]
  simp only [Option.some.injEq, Prod.mk.injEq]
  constructor <;>
  · apply tab_congr
    intro i hi
    simp [hi]

theorem combine_loop (tw : Nat → Nat → K) (N h : Nat) (hN : N / 2 = h) (e o x0 : Nat → K)
    (n : Nat) (hn : n ≤ h) :
    forRange (combineStep tw N (tab h e) (tab h o)) n (tab N x0) =
      some (tab N (fun k =>
        if k < n then e k + tw k N * o k
        else if h ≤ k ∧ k < h + n then e (k - h) - tw (k - h) N * o (k - h)
        else x0 k)) := by
  induction n with
  | zero =>
    simp only [forRange, Option.some.injEq]
    apply tab_congr
    intro i _
    have : ¬ (h ≤ i ∧ i < h) := by omega
    simp [this]
  | succ n ih =>
    rw [forRange, ih (by omega)]
    simp only [Option.some_bind, combineStep]
    rw [readAt_tab o (by omega : n < h), readAt_tab e (by omega : n < h)]
    simp only [Option.bind_eq_bind, Option.some_bind]
    rw [writeAt_tab _ _ (by omega : n < N)]
    simp only [Option.some_bind]
    rw [writeAt_tab _ _ (by omega : n + N / 2 < N)]
    simp only [Option.some.injEq]
    apply tab_congr
    intro i _
    rw [hN]
    by_cases h1 : i = n + h
    · subst h1
      have a1 : ¬ (n + h < n + 1) := by omega
      have a2 : h ≤ n + h ∧ n + h < h + (n + 1) := by omega
      simp [a1, a2]
    · rw [Function.update_noteq h1]
      by_cases h2 : i = n
      · subst h2
        simp
      · rw [Function.update_noteq h2]
        have a1 : (i < n + 1) ↔ (i < n) := by omega
        have a2 : (h ≤ i ∧ i < h + (n + 1)) ↔ (h ≤ i ∧ i < h + n) := by omega
        simp only [a1, a2]

/-- One unfolding of the recursion of `fft` on an input of length at least two,
given the results of the two recursive calls. -/
theorem fftFuel_succ (tw : Nat → Nat → K) (fuel : Nat) (x : List K) (hx : 1 < x.length)
    (E O : Nat → K)
    (hE : fftFuel tw fuel (tab (x.length / 2) (fun i => x.getD (i * 2) 0)) =
      some (tab (x.length / 2) E))
    (hO : fftFuel tw fuel (tab (x.length / 2) (fun i => x.getD (i * 2 + 1) 0)) =
      some (tab (x.length / 2) O)) :
    fftFuel tw (fuel + 1) x =
      some (tab x.length (fun k =>
        if k < x.length / 2 then E k + tw k x.length * O k
        else if x.length / 2 ≤ k ∧ k < x.length / 2 + x.length / 2 then
          E (k - x.length / 2) - tw (k - x.length / 2) x.length * O (k - x.length / 2)
        else x.getD k 0)) := by
  rw [fftFuel, if_neg (by omega), divide_eq]
  simp only [Option.bind_eq_bind, Option.some_bind]
  rw [hE, hO]
  simp only [Option.some_bind]
  conv_lhs => rw [eq_tab x 0]
  rw [length_tab]
  exact combine_loop tw x.length (x.length / 2) rfl E O _ _ (le_refl _)

/-- With more fuel than the length of the input, `fft` returns a vector of the
same length: no access is out of bounds and the fuel is never exhausted. -/
theorem fftFuel_total (tw : Nat → Nat → K) (fuel : Nat) :
    ∀ x : List K, x.length < fuel → ∃ f : Nat → K, fftFuel tw fuel x = some (tab x.length f) := by
  induction fuel with
  | zero => intro x hx; omega
  | succ fuel ih =>
    intro x hx
    by_cases h1 : x.length ≤ 1
    · refine ⟨fun i => x.getD i 0, ?_⟩
      rw [fftFuel, if_pos h1, ← eq_tab]
    · obtain ⟨E, hE⟩ := ih (tab (x.length / 2) (fun i => x.getD (i * 2) 0))
        (by rw [length_tab]; omega)
      obtain ⟨O, hO⟩ := ih (tab (x.length / 2) (fun i => x.getD (i * 2 + 1) 0))
        (by rw [length_tab]; omega)
      rw [length_tab] at hE hO
      exact ⟨_, fftFuel_succ tw fuel x (by omega) E O hE hO⟩

theorem fftFuel_mono (tw : Nat → Nat → K) (fuel : Nat) :
    ∀ x y : List K, fftFuel tw fuel x = some y → fftFuel tw (fuel + 1) x = some y := by
  induction fuel with
  | zero => intro x y h; simp [fftFuel] at h
  | succ fuel ih =>
    intro x y h
    rw [fftFuel] at h ⊢
    by_cases h1 : x.length ≤ 1
    · rw [if_pos h1] at h ⊢; exact h
    · rw [if_neg h1] at h ⊢
      rw [divide_eq] at h ⊢
      simp only [Option.bind_eq_bind, Option.some_bind] at h ⊢
      cases he : fftFuel tw fuel (tab (x.length / 2) (fun i => x.getD (i * 2) 0)) with
      | none => rw [he] at h; simp at h
      | some e1 =>
        rw [he] at h
        rw [ih _ _ he]
        simp only [Option.some_bind] at h ⊢
        cases ho : fftFuel tw fuel (tab (x.length / 2) (fun i => x.getD (i * 2 + 1) 0)) with
        | none => rw [ho] at h; simp at h
        | some o1 =>
          rw [ho] at h
          rw [ih _ _ ho]
          exact h

theorem fftFuel_mono_le (tw : Nat → Nat → K) (x y : List K) (fuel fuel2 : Nat)
    (hle : fuel ≤ fuel2) (h : fftFuel tw fuel x = some y) : fftFuel tw fuel2 x = some y := by
  induction hle with
  | refl => exact h
  | step _ ih => exact fftFuel_mono tw _ x y ih

/-- The result of `fft` does not depend on the amount of fuel once it exceeds the
length of the input. -/
theorem fftFuel_eq_fft (tw : Nat → Nat → K) (fuel : Nat) (x : List K) (hx : x.length < fuel) :
    fftFuel tw fuel x = fft tw x := by
  obtain ⟨f, hf⟩ := fftFuel_total tw (x.length + 1) x (by omega)
  unfold fft
  rw [hf]
  exact fftFuel_mono_le tw x _ (x.length + 1) fuel (by omega) hf

end LoopLemmas

section ExactComplex

open Complex Finset

theorem polar_one (theta : ℝ) : polar 1 theta = Complex.exp (theta * Complex.I) := by
  rw [Complex.exp_mul_I]
  apply Complex.ext <;> simp [polar, Complex.cos_ofReal_re, Complex.sin_ofReal_re,
    Complex.cos_ofReal_im, Complex.sin_ofReal_im]

theorem twiddle_eq (k N : Nat) : twiddle k N = omega N ^ k := by
  unfold twiddle omega
  rw [polar_one, ← Complex.exp_nat_mul]
  congr 1
  push_cast
  ring

theorem exp_eq_omega_pow (N j k : Nat) :
    Complex.exp (-2 * Real.pi * Complex.I * j * k / N) = omega N ^ (j * k) := by
  unfold omega
  rw [← Complex.exp_nat_mul]
  congr 1
  push_cast
  ring

theorem omega_two_mul_sq (h : Nat) : omega (2 * h) ^ 2 = omega h := by
  unfold omega
  rw [← Complex.exp_nat_mul]
  congr 1
  push_cast
  by_cases h0 : (h : ℂ) = 0
  · simp [h0]
  · field_simp
    ring

theorem omega_two_mul_pow (h : Nat) (h0 : h ≠ 0) : omega (2 * h) ^ h = -1 := by
  unfold omega
  rw [← Complex.exp_nat_mul]
  have hc : (h : ℂ) ≠ 0 := by exact_mod_cast h0
  have : (h : ℂ) * (-2 * Real.pi * Complex.I / ((2 * h : ℕ) : ℂ)) = -(Real.pi * Complex.I) := by
    push_cast
    field_simp
    ring
  rw [this, Complex.exp_neg, Complex.exp_pi_mul_I]
  norm_num

theorem sum_range_two_mul {M : Type} [AddCommMonoid M] (f : Nat → M) (h : Nat) :
    ∑ j ∈ range (2 * h), f j = ∑ j ∈ range h, (f (j * 2) + f (j * 2 + 1)) := by
  induction h with
  | zero => simp
  | succ h ih =>
    rw [show 2 * (h + 1) = 2 * h + 1 + 1 by ring, sum_range_succ, sum_range_succ, ih,
      sum_range_succ, show 2 * h = h * 2 by ring]
    abel

/-- The butterfly identities behind the combine loop. -/
theorem butterfly_low (z : ℂ) (a : Nat → ℂ) (h k : Nat) :
    ∑ j ∈ range (2 * h), a j * z ^ (j * k) =
      (∑ j ∈ range h, a (j * 2) * (z ^ 2) ^ (j * k)) +
        z ^ k * ∑ j ∈ range h, a (j * 2 + 1) * (z ^ 2) ^ (j * k) := by
  rw [sum_range_two_mul, sum_add_distrib, mul_sum]
  congr 1
  · apply sum_congr rfl
    intro j _
    rw [← pow_mul, show j * 2 * k = 2 * (j * k) by ring]
  · apply sum_congr rfl
    intro j _
    rw [← pow_mul, show (j * 2 + 1) * k = k + 2 * (j * k) by ring, pow_add]
    ring

theorem butterfly_high (z : ℂ) (a : Nat → ℂ) (h k : Nat) (hz : z ^ h = -1) :
    ∑ j ∈ range (2 * h), a j * z ^ (j * (k + h)) =
      (∑ j ∈ range h, a (j * 2) * (z ^ 2) ^ (j * k)) -
        z ^ k * ∑ j ∈ range h, a (j * 2 + 1) * (z ^ 2) ^ (j * k) := by
  rw [sum_range_two_mul, sum_add_distrib, mul_sum, sub_eq_add_neg, ← sum_neg_distrib]
  congr 1
  · apply sum_congr rfl
    intro j _
    rw [← pow_mul, show j * 2 * (k + h) = 2 * (j * k) + h * (2 * j) by ring, pow_add,
      pow_mul z h, hz, pow_mul (-1 : ℂ) 2 j]
    norm_num
  · apply sum_congr rfl
    intro j _
    rw [← pow_mul, show (j * 2 + 1) * (k + h) = k + 2 * (j * k) + h * (2 * j) + h by ring,
      pow_add, pow_add, pow_add, pow_mul z h, hz, pow_mul (-1 : ℂ) 2 j]
    norm_num
    ring

/-- On a vector of length `2^m` given by its entries, `fft` computes the discrete
Fourier transform, for any fuel above `m`. -/
theorem fftFuel_dft (m : Nat) :
    ∀ (a : Nat → ℂ) (fuel : Nat), m < fuel →
      fftFuel twiddle fuel (tab (2 ^ m) a) =
        some (tab (2 ^ m) (fun k => ∑ j ∈ range (2 ^ m), a j * omega (2 ^ m) ^ (j * k))) := by
  induction m with
  | zero =>
    intro a fuel hf
    obtain ⟨fuel, rfl⟩ : ∃ n, fuel = n + 1 := ⟨fuel - 1, by omega⟩
    rw [fftFuel, if_pos (by simp [length_tab])]
    simp only [Option.some.injEq]
    apply tab_congr
    intro i hi
    have : i = 0 := by simpa using hi
    subst this
    simp
  | succ m ih =>
    intro a fuel hf
    obtain ⟨fuel, rfl⟩ : ∃ n, fuel = n + 1 := ⟨fuel - 1, by omega⟩
    have hpos : 0 < 2 ^ m := pow_pos (by norm_num) m
    have hlen : (tab (2 ^ (m + 1)) a).length = 2 ^ (m + 1) := length_tab _ _
    have hhalf : 2 ^ (m + 1) / 2 = 2 ^ m := by rw [pow_succ]; omega
    have hN : 2 ^ (m + 1) = 2 * 2 ^ m := by rw [pow_succ]; ring
    have hE := ih (fun i => a (i * 2)) fuel (by omega)
    have hO := ih (fun i => a (i * 2 + 1)) fuel (by omega)
    have e1 : tab ((tab (2 ^ (m + 1)) a).length / 2)
        (fun i => (tab (2 ^ (m + 1)) a).getD (i * 2) 0) = tab (2 ^ m) (fun i => a (i * 2)) := by
      rw [hlen, hhalf]
      apply tab_congr
      intro i hi
      exact getD_tab _ _ _ _ (by omega)
    have e2 : tab ((tab (2 ^ (m + 1)) a).length / 2)
        (fun i => (tab (2 ^ (m + 1)) a).getD (i * 2 + 1) 0) =
          tab (2 ^ m) (fun i => a (i * 2 + 1)) := by
      rw [hlen, hhalf]
      apply tab_congr
      intro i hi
      exact getD_tab _ _ _ _ (by omega)
    rw [fftFuel_succ twiddle fuel _ (by rw [hlen, hN]; omega)
      (fun k => ∑ j ∈ range (2 ^ m), a (j * 2) * omega (2 ^ m) ^ (j * k))
      (fun k => ∑ j ∈ range (2 ^ m), a (j * 2 + 1) * omega (2 ^ m) ^ (j * k))
      (by rw [e1, hlen, hhalf]; exact hE) (by rw [e2, hlen, hhalf]; exact hO)]
    rw [hlen, hhalf]
    simp only [Option.some.injEq]
    apply tab_congr
    intro k hk
    have hz : omega (2 ^ (m + 1)) ^ 2 = omega (2 ^ m) := by
      rw [hN]; exact omega_two_mul_sq _
    have hz2 : omega (2 ^ (m + 1)) ^ (2 ^ m) = -1 := by
      rw [hN]; exact omega_two_mul_pow _ (by omega)
    by_cases h1 : k < 2 ^ m
    · rw [if_pos h1, twiddle_eq]
      conv_rhs => rw [hN]
      rw [butterfly_low, ← hN, hz]
    · have h2 : 2 ^ m ≤ k ∧ k < 2 ^ m + 2 ^ m := by omega
      rw [if_neg h1, if_pos h2, twiddle_eq]
      obtain ⟨k2, rfl⟩ : ∃ k2, k = k2 + 2 ^ m := ⟨k - 2 ^ m, by omega⟩
      rw [Nat.add_sub_cancel]
      conv_rhs => rw [hN]
      rw [butterfly_high _ _ _ _ (by rw [← hN]; exact hz2), ← hN, hz]

theorem map_tab {α β : Type} (g : α → β) (n : Nat) (f : Nat → α) :
    (tab n f).map g = tab n (fun i => g (f i)) := by
  simp [tab, List.map_map, Function.comp_def]

theorem omega_isPrimitiveRoot (N : Nat) (hN : N ≠ 0) : IsPrimitiveRoot (omega N) N := by
  have h := (Complex.isPrimitiveRoot_exp N hN).inv
  have e : omega N = (Complex.exp (2 * Real.pi * Complex.I / N))⁻¹ := by
    unfold omega
    rw [← Complex.exp_neg]
    congr 1
    ring
  rw [e]
  exact h

theorem conj_omega (N : Nat) : (starRingEnd ℂ) (omega N) = (omega N)⁻¹ := by
  unfold omega
  rw [← Complex.exp_conj, ← Complex.exp_neg]
  congr 1
  have h2 : (starRingEnd ℂ) (2 : ℂ) = 2 := Complex.conj_ofReal 2
  simp [Complex.conj_ofReal, h2]
  ring

/-- Orthogonality of the characters of the cyclic group of order `N`. -/
theorem omega_orthogonality (N : Nat) (hN : N ≠ 0) (j l : Nat) (hj : j < N) (hl : l < N) :
    ∑ k ∈ range N, omega N ^ (j * k) * ((omega N)⁻¹) ^ (k * l) =
      if j = l then (N : ℂ) else 0 := by
  have hprim := omega_isPrimitiveRoot N hN
  have hne : omega N ≠ 0 := hprim.ne_zero hN
  have hterm : ∀ k, omega N ^ (j * k) * ((omega N)⁻¹) ^ (k * l) =
      (omega N ^ j * ((omega N) ^ l)⁻¹) ^ k := by
    intro k
    rw [mul_pow, pow_mul, inv_pow, inv_pow, ← pow_mul (omega N) l k, mul_comm k l]
  simp only [hterm]
  by_cases hjl : j = l
  · subst hjl
    rw [if_pos rfl, mul_inv_cancel₀ (pow_ne_zero _ hne)]
    simp
  · rw [if_neg hjl]
    have hz1 : omega N ^ j * ((omega N) ^ l)⁻¹ ≠ 1 := by
      intro h
      rw [mul_inv_eq_one₀ (pow_ne_zero _ hne)] at h
      exact hjl (hprim.pow_inj hj hl h)
    have hzN : (omega N ^ j * ((omega N) ^ l)⁻¹) ^ N = 1 := by
      rw [mul_pow, inv_pow, ← pow_mul, ← pow_mul, mul_comm j N, mul_comm l N, pow_mul, pow_mul,
        hprim.pow_eq_one]
      simp
    have hg := geom_sum_mul (omega N ^ j * ((omega N) ^ l)⁻¹) N
    rw [hzN, sub_self] at hg
    rcases mul_eq_zero.mp hg with h0 | h0
    · exact h0
    · exact absurd (sub_eq_zero.mp h0) hz1

/-- Inverse transform of the transform, entrywise. -/
theorem inverse_dft_entry (N : Nat) (hN : N ≠ 0) (a : Nat → ℂ) (l : Nat) (hl : l < N) :
    (starRingEnd ℂ) (∑ k ∈ range N,
        (starRingEnd ℂ) (∑ j ∈ range N, a j * omega N ^ (j * k)) * omega N ^ (k * l)) / (N : ℂ)
      = a l := by
  have hNc : (N : ℂ) ≠ 0 := by exact_mod_cast hN
  rw [map_sum]
  have step : ∀ k ∈ range N,
      (starRingEnd ℂ) ((starRingEnd ℂ) (∑ j ∈ range N, a j * omega N ^ (j * k)) *
          omega N ^ (k * l)) =
        ∑ j ∈ range N, a j * (omega N ^ (j * k) * ((omega N)⁻¹) ^ (k * l)) := by
    intro k _
    rw [map_mul, Complex.conj_conj, map_pow, conj_omega, sum_mul]
    apply sum_congr rfl
    intro j _
    ring
  rw [sum_congr rfl step, sum_comm]
  simp only [← mul_sum]
  have inner : ∀ j ∈ range N,
      a j * ∑ k ∈ range N, omega N ^ (j * k) * ((omega N)⁻¹) ^ (k * l) =
        if j = l then a j * (N : ℂ) else 0 := by
    intro j hj
    rw [omega_orthogonality N hN j l (by simpa using hj) hl]
    split <;> simp
  rw [sum_congr rfl inner, sum_ite_eq' (range N) l (fun j => a j * (N : ℂ))]
  rw [if_pos (by simpa using hl)]
  field_simp

theorem conj_eq (z : ℂ) : conj z = (starRingEnd ℂ) z := by
  apply Complex.ext <;> simp [conj]

theorem fft_dft_tab (m : Nat) (x : List ℂ) (hx : x.length = 2 ^ m) :
    fft twiddle x =
      some (tab x.length (fun k => ∑ j ∈ range x.length, x.getD j 0 * omega x.length ^ (j * k))) := by
  have hfuel : m < x.length + 1 := by
    rw [hx]; exact Nat.lt_succ_of_lt (Nat.lt_two_pow m)
  have h := fftFuel_dft m (fun i => x.getD i 0) (x.length + 1) hfuel
  rw [← hx, ← eq_tab] at h
  exact h

end ExactComplex

section CallSizes

variable {K : Type} [Field K]

theorem generate_loop (sample : Nat → K) (size n : Nat) (hn : n ≤ size) :
    forRange (fun i data => writeAt data i (sample i)) n (tab size (fun _ => (0 : K))) =
      some (tab size (fun i => if i < n then sample i else 0)) := by
  induction n with
  | zero => simp [forRange]
  | succ n ih =>
    rw [forRange, ih (by omega)]
    simp only [Option.some_bind]
    rw [writeAt_tab _ _ (by omega : n < size)]
    simp only [Option.some.injEq]
    apply tab_congr
    intro i _
    by_cases hi : i = n
    · subst hi; simp
    · rw [Function.update_noteq hi]
      have : (i < n + 1) ↔ (i < n) := by omega
      simp [this]

theorem generate_test_data_eq (sample : Nat → K) (size : Nat) :
    generate_test_data sample size = some (tab size sample) := by
  unfold generate_test_data
  rw [replicate_eq_tab, generate_loop sample size size (le_refl _)]
  simp only [Option.some.injEq]
  apply tab_congr
  intro i hi
  simp [hi]

/-- On an input of length `2^m` every call of `fft` in the call tree receives a
vector whose length is a power of two. -/
theorem fftCallSizes_pow2 (m : Nat) :
    ∀ (x : List K) (fuel : Nat), x.length = 2 ^ m → m < fuel →
      ∃ sizes, fftCallSizes fuel x = some sizes ∧ ∀ n ∈ sizes, ∃ e, n = 2 ^ e := by
  induction m with
  | zero =>
    intro x fuel hx hf
    obtain ⟨fuel, rfl⟩ : ∃ n, fuel = n + 1 := ⟨fuel - 1, by omega⟩
    refine ⟨[x.length], ?_, ?_⟩
    · rw [fftCallSizes, if_pos (by rw [hx]; simp)]
    · intro n hn
      exact ⟨0, by simpa [hx] using hn⟩
  | succ m ih =>
    intro x fuel hx hf
    obtain ⟨fuel, rfl⟩ : ∃ n, fuel = n + 1 := ⟨fuel - 1, by omega⟩
    have hpos : 0 < 2 ^ m := pow_pos (by norm_num) m
    have hN : 2 ^ (m + 1) = 2 * 2 ^ m := by rw [pow_succ]; ring
    have hhalf : x.length / 2 = 2 ^ m := by rw [hx, hN]; omega
    obtain ⟨l1, h1, p1⟩ := ih (tab (x.length / 2) (fun i => x.getD (i * 2) 0)) fuel
      (by rw [length_tab, hhalf]) (by omega)
    obtain ⟨l2, h2, p2⟩ := ih (tab (x.length / 2) (fun i => x.getD (i * 2 + 1) 0)) fuel
      (by rw [length_tab, hhalf]) (by omega)
    refine ⟨x.length :: (l1 ++ l2), ?_, ?_⟩
    · rw [fftCallSizes, if_neg (by rw [hx, hN]; omega), divide_eq]
      simp only [Option.bind_eq_bind, Option.some_bind]
      rw [h1, h2]
      rfl
    · intro n hn
      rcases List.mem_cons.mp hn with h | h
      · exact ⟨m + 1, by rw [h, hx]⟩
      · rcases List.mem_append.mp h with h | h
        · exact p1 n h
        · exact p2 n h

theorem fft_sizes_menu (r : Nat) (hr : r < 8) :
    ∃ e : Nat, readAt fft_sizes r = some ((2 : Int) ^ e) ∧ e ≤ 10 ∧
      ((2 : Int) ^ e) ∈ ([8, 16, 32, 64, 128, 256, 512, 1024] : List Int) := by
  interval_cases r
  · exact ⟨3, by decide, by decide, by decide⟩
  · exact ⟨4, by decide, by decide, by decide⟩
  · exact ⟨5, by decide, by decide, by decide⟩
  · exact ⟨6, by decide, by decide, by decide⟩
  · exact ⟨7, by decide, by decide, by decide⟩
  · exact ⟨8, by decide, by decide, by decide⟩
  · exact ⟨9, by decide, by decide, by decide⟩
  · exact ⟨10, by decide, by decide, by decide⟩

theorem toSizeT_two_pow (e : Nat) (he : e ≤ 10) : toSizeT ((2 : Int) ^ e) = 2 ^ e := by
  interval_cases e <;> rfl

end CallSizes

theorem fft_total_same_length {K : Type} [Field K] (tw : Nat → Nat → K) (x : List K) :
    ∃ y : List K, fft tw x = some y ∧ y.length = x.length := by
  obtain ⟨f, hf⟩ := fftFuel_total tw (x.length + 1) x (by omega)
  exact ⟨_, hf, length_tab _ _⟩

/-- The inverse transform never fails either and keeps the length. -/
theorem ifft_total_same_length {K : Type} [Field K] (tw : Nat → Nat → K) (cj : K → K)
    (x : List K) : ∃ y : List K, ifft tw cj x = some y ∧ y.length = x.length := by
  obtain ⟨y, hy, hlen⟩ := fft_total_same_length tw (x.map cj)
  refine ⟨y.map (fun val => cj val / (y.length : K)), ?_, ?_⟩
  · simp [ifft, hy]
  · rw [List.length_map, hlen, List.length_map]

/-- The body of the worker loop always completes: data generation, forward and
inverse transform return, whatever the size. -/
theorem round_trip_returns {K : Type} [Field K] (tw : Nat → Nat → K) (cj : K → K)
    (sample : Nat → K) (fft_size : Int) :
    ∃ data : List K, round_trip tw cj sample fft_size = some data ∧
      data.length = toSizeT fft_size := by
  obtain ⟨y, hy, hylen⟩ := fft_total_same_length tw (tab (toSizeT fft_size) sample)
  obtain ⟨z, hz, hzlen⟩ := ifft_total_same_length tw cj y
  refine ⟨z, ?_, ?_⟩
  · simp [round_trip, generate_test_data_eq, hy, hz]
  · rw [hzlen, hylen, length_tab]

/-! ## Worked examples over the exact complex numbers -/

theorem twiddle_zero (N : Nat) : twiddle 0 N = 1 := by
  rw [twiddle_eq, pow_zero]

theorem twiddle_one_four : twiddle 1 4 = -Complex.I := by
  have h : (-2 * Real.pi * ((1 : Nat) : ℝ) / ((4 : Nat) : ℝ)) = -(Real.pi / 2) := by
    push_cast; ring
  unfold twiddle polar
  rw [h, Real.cos_neg, Real.sin_neg, Real.cos_pi_div_two, Real.sin_pi_div_two]
  apply Complex.ext <;> simp

/-- The transform of `[1, 2]` is `[3, -1]`. -/
theorem fft_two_samples : fft twiddle [1, 2] = some [3, -1] := by
  simp [fft, fftFuel, divide, forRange, divideStep, combineStep, readAt, writeAt, twiddle_zero]
  norm_num

/-- The inverse transform of `[3, -1]` is `[1, 2]`. -/
theorem ifft_two_samples : ifft twiddle conj [3, -1] = some [1, 2] := by
  simp [ifft, fft, fftFuel, divide, forRange, divideStep, combineStep, readAt, writeAt,
    twiddle_zero, conj_eq]
  norm_num

/-- The transform of `[1, 1, 0, 0]` is `[2, 1 - i, 0, 1 + i]`. -/
theorem fft_four_samples :
    fft twiddle [1, 1, 0, 0] = some [2, 1 - Complex.I, 0, 1 + Complex.I] := by
  simp [fft, fftFuel, divide, forRange, divideStep, combineStep, readAt, writeAt,
    twiddle_zero, twiddle_one_four]
  refine ⟨?_, ?_⟩ <;> ring

/-! # Claims about the transform engine -/

/-- C1: for every complex sequence `x` whose length is a power of two, `fft`
(over the exact complex numbers) returns a sequence `y` of the same length whose
`k`-th entry, for every `k` below the length, is the sum over `j` of
`x[j] * exp(-2*pi*i*j*k/N)`: the discrete Fourier transform of `x`. -/
theorem fft_is_dft (m : Nat) (x : List ℂ) (hx : x.length = 2 ^ m) :
    ∃ y : List ℂ, fft twiddle x = some y ∧ y.length = x.length ∧
      ∀ k, k < x.length →
        y[k]? = some (∑ j ∈ Finset.range x.length,
          x.getD j 0 * Complex.exp (-2 * Real.pi * Complex.I * j * k / x.length)) := by
  refine ⟨_, fft_dft_tab m x hx, length_tab _ _, ?_⟩
  intro k hk
  rw [getElem_opt_tab, if_pos hk]
  simp only [exp_eq_omega_pow]

/-- Witness of C1 on the two-sample sequence `[1, 2]`. -/
theorem fft_is_dft_witness :
    ([1, 2] : List ℂ).length = 2 ^ 1 ∧
    ∃ y : List ℂ, fft twiddle [1, 2] = some y ∧ y.length = ([1, 2] : List ℂ).length ∧
      ∀ k, k < ([1, 2] : List ℂ).length →
        y[k]? = some (∑ j ∈ Finset.range ([1, 2] : List ℂ).length,
          ([1, 2] : List ℂ).getD j 0 *
            Complex.exp (-2 * Real.pi * Complex.I * j * k / ([1, 2] : List ℂ).length)) :=
  ⟨rfl, fft_is_dft 1 [1, 2] rfl⟩

/-- C2: round trip. For every complex sequence `x` whose length is a power of two,
`fft` returns some `y` and `ifft` applied to `y` returns exactly `x` (same length,
same samples), arithmetic being exact. -/
theorem ifft_fft_roundtrip (m : Nat) (x : List ℂ) (hx : x.length = 2 ^ m) :
    ∃ y : List ℂ, fft twiddle x = some y ∧ ifft twiddle conj y = some x := by
  refine ⟨_, fft_dft_tab m x hx, ?_⟩
  have hN : x.length ≠ 0 := by rw [hx]; exact pow_ne_zero _ (by norm_num)
  unfold ifft
  rw [map_tab]
  simp only [Option.bind_eq_bind]
  rw [fft_dft_tab m _ (by rw [length_tab]; exact hx)]
  simp only [Option.some_bind, pure, length_tab, map_tab, Option.some.injEq]
  conv_rhs => rw [eq_tab x 0]
  apply tab_congr
  intro l hl
  have e : ∀ k, k < x.length →
      (tab x.length (fun i => conj (∑ j ∈ Finset.range x.length,
        x.getD j 0 * omega x.length ^ (j * i)))).getD k 0 =
      (starRingEnd ℂ) (∑ j ∈ Finset.range x.length, x.getD j 0 * omega x.length ^ (j * k)) := by
    intro k hk
    rw [getD_tab _ _ _ _ hk, conj_eq]
  rw [conj_eq, Finset.sum_congr rfl (fun k hk => by rw [e k (by simpa using hk)])]
  exact inverse_dft_entry x.length hN (fun j => x.getD j 0) l hl

/-- Witness of C2 on the two-sample sequence `[1, 2]`. -/
theorem ifft_fft_roundtrip_witness :
    ([1, 2] : List ℂ).length = 2 ^ 1 ∧
    ∃ y : List ℂ, fft twiddle [1, 2] = some y ∧ ifft twiddle conj y = some [1, 2] :=
  ⟨rfl, ifft_fft_roundtrip 1 [1, 2] rfl⟩

/-- C10: `fft` raises no error on any input. For every sequence `x` of any length
(power of two or not), over any field and for any twiddle function, the embedding
with checked vector accesses and bounded recursion returns a result, and the result
has the length of `x`: every index read or written is in bounds and the recursion
on the two halves terminates. -/
theorem fft_never_fails {K : Type} [Field K] (tw : Nat → Nat → K) (x : List K) :
    ∃ y : List K, fft tw x = some y ∧ y.length = x.length :=
  fft_total_same_length tw x

/-- C9: the harness never exercises the non-power-of-two path. For every worker
index `i`, the lookup `fft_sizes[i % 8]` is in bounds and yields one of 8, 16, 32,
64, 128, 256, 512, 1024, a power of two; `generate_test_data` of that size returns
a vector of exactly that length; every call of `fft` in the call tree of
`fft(data)` receives a vector whose length is a power of two; `fft(data)` returns
some vector `y`, and the same holds for the call tree of the `fft` call made by
`ifft` on the conjugated `y`. -/
theorem harness_sizes_power_of_two {K : Type} [Field K] (tw : Nat → Nat → K) (cj : K → K)
    (sample : Nat → K) (i : Nat) :
    ∃ s : Int, fft_size_of_worker (i : Int) = some s ∧
      s ∈ ([8, 16, 32, 64, 128, 256, 512, 1024] : List Int) ∧ (∃ e : Nat, s = 2 ^ e) ∧
      ∃ data : List K, generate_test_data sample (toSizeT s) = some data ∧
        (data.length : Int) = s ∧
        (∃ sizes, fftCallSizes (data.length + 1) data = some sizes ∧
          ∀ n ∈ sizes, ∃ e : Nat, n = 2 ^ e) ∧
        ∃ y : List K, fft tw data = some y ∧
          ∃ sizes, fftCallSizes ((y.map cj).length + 1) (y.map cj) = some sizes ∧
            ∀ n ∈ sizes, ∃ e : Nat, n = 2 ^ e := by
  have hr : toSizeT (i : Int) % fft_sizes.length < 8 := Nat.mod_lt _ (by decide)
  obtain ⟨e, hread, he, hmem⟩ := fft_sizes_menu _ hr
  have hlen : (tab (2 ^ e) sample).length = 2 ^ e := length_tab _ _
  have hfuel : e < 2 ^ e + 1 := Nat.lt_succ_of_lt (Nat.lt_two_pow e)
  refine ⟨2 ^ e, hread, hmem, ⟨e, rfl⟩, tab (2 ^ e) sample, ?_, ?_, ?_, ?_⟩
  · rw [toSizeT_two_pow e he, generate_test_data_eq]
  · rw [hlen]; push_cast; rfl
  · rw [hlen]
    exact fftCallSizes_pow2 e _ _ hlen hfuel
  · obtain ⟨y, hy, hylen⟩ := fft_total_same_length tw (tab (2 ^ e) sample)
    refine ⟨y, hy, ?_⟩
    have hl : (y.map cj).length = 2 ^ e := by rw [List.length_map, hylen, hlen]
    rw [hl]
    exact fftCallSizes_pow2 e _ _ hl hfuel

/-! # The worker loop and the shared state -/

section Harness

theorem stress_test_worker_step_round_trips_le (r : Bool) (g : Nat) (w : Worker) :
    w.round_trips ≤ (stress_test_worker_step r g w).2.round_trips := by
  obtain ⟨tid, fs, pc, loc, rt, add⟩ := w
  cases pc <;> simp only [stress_test_worker_step] <;> (try split_ifs) <;> simp

theorem stress_test_worker_step_inv (r : Bool) (g : Nat) (w : Worker)
    (hrt : (stress_test_worker_step r g w).2.round_trips < 2 ^ 64) (hw : WorkerInv w) :
    WorkerInv (stress_test_worker_step r g w).2 := by
  obtain ⟨tid, fs, pc, loc, rt, add⟩ := w
  cases pc <;> simp only [stress_test_worker_step, WorkerInv] at hrt hw ⊢ <;> (try split_ifs at hrt ⊢) <;>
    (try simp only [] at hrt ⊢) <;> omega

theorem stress_test_worker_step_counter (r : Bool) (g : Nat) (w : Worker) :
    ∃ d, (stress_test_worker_step r g w).2.added = w.added + d ∧
      ∀ A, g = A % 2 ^ 64 → (stress_test_worker_step r g w).1 = (A + d) % 2 ^ 64 := by
  obtain ⟨tid, fs, pc, loc, rt, add⟩ := w
  cases pc <;> simp only [stress_test_worker_step] <;> (try split_ifs)
  all_goals first
    | exact ⟨0, by simp, fun A hA => by simpa using hA⟩
    | exact ⟨10, by simp, fun A hA => by subst hA; omega⟩
    | exact ⟨loc % 10, by simp, fun A hA => by subst hA; omega⟩

theorem sumAdded_set (ws : List Worker) :
    ∀ (i : Nat) (w w2 : Worker) (d : Nat), ws[i]? = some w → w2.added = w.added + d →
      sumAdded (ws.set i w2) = sumAdded ws + d := by
  induction ws with
  | nil => intro i w w2 d h; simp at h
  | cons a t ih =>
    intro i w w2 d h hd
    cases i with
    | zero =>
      simp only [List.getElem?_cons_zero, Option.some.injEq] at h
      subst h
      simp only [sumAdded, List.set_cons_zero, List.map_cons, List.sum_cons, hd]
      omega
    | succ i =>
      simp only [List.getElem?_cons_succ] at h
      have := ih i w w2 d h hd
      simp only [sumAdded, List.set_cons_succ, List.map_cons, List.sum_cons] at this ⊢
      omega

theorem step_inv (SIGINT SIGTERM : Int) (s : State) (ev : Event) (hs : StateInv s) :
    StateInv (step SIGINT SIGTERM s ev) := by
  cases ev with
  | signal signum =>
    simp only [step, signal_handler]
    split_ifs
    · exact hs
    · exact hs
  | reporter =>
    simp only [step, display_stats_step]
    cases s.reporter <;> simp only [] <;> (try split_ifs) <;> exact hs
  | worker i =>
    simp only [step]
    cases hw : s.workers[i]? with
    | none => exact hs
    | some w =>
      simp only []
      obtain ⟨d, hd, hg⟩ := stress_test_worker_step_counter s.g_running s.g_total_iterations w
      refine ⟨?_, ?_⟩
      · simp only []
        rw [sumAdded_set s.workers i w _ d hw hd]
        exact hg _ hs.1
      · intro w2 hmem hrt
        simp only [] at hmem
        rcases List.mem_or_eq_of_mem_set hmem with h | h
        · exact hs.2 w2 h hrt
        · subst h
          have hwmem : w ∈ s.workers := by
            obtain ⟨hi, hget⟩ := List.getElem?_eq_some.mp hw
            rw [← hget]
            exact List.getElem_mem _
          have hle := stress_test_worker_step_round_trips_le s.g_running s.g_total_iterations w
          exact stress_test_worker_step_inv _ _ w hrt (hs.2 w hwmem (by omega))

theorem run_inv (SIGINT SIGTERM : Int) (evs : List Event) :
    ∀ s : State, StateInv s → StateInv (run SIGINT SIGTERM s evs) := by
  induction evs with
  | nil => intro s hs; exact hs
  | cons ev evs ih =>
    intro s hs
    exact ih _ (step_inv SIGINT SIGTERM s ev hs)

theorem sumAdded_fresh (ws : List Worker) (h : ∀ w ∈ ws, Fresh w) : sumAdded ws = 0 := by
  induction ws with
  | nil => rfl
  | cons a t ih =>
    have ha := (h a (List.mem_cons_self _ _)).2.2.2
    have ht := ih (fun w hw => h w (List.mem_cons_of_mem _ hw))
    simp only [sumAdded, List.map_cons, List.sum_cons] at ht ⊢
    omega

theorem init_inv (threads : List Worker) (h : ∀ w ∈ threads, Fresh w) :
    StateInv (initState threads) := by
  refine ⟨?_, ?_⟩
  · simp only [initState]
    rw [sumAdded_fresh threads h]
    rfl
  · intro w hw _
    obtain ⟨h1, h2, h3, h4⟩ := h w hw
    simp only [WorkerInv, h1]
    omega

theorem run_append (SIGINT SIGTERM : Int) (s : State) (a b : List Event) :
    run SIGINT SIGTERM s (a ++ b) = run SIGINT SIGTERM (run SIGINT SIGTERM s a) b := by
  simp [run, List.foldl_append]

theorem loop_iteration (SIGINT SIGTERM : Int) (n : Nat) (hn : n + 1 < 2 ^ 64) :
    run SIGINT SIGTERM (loopState n) (List.replicate 4 (Event.worker 0)) = loopState (n + 1) := by
  have h1 : (n + 1) % 2 ^ 64 = n + 1 := Nat.mod_eq_of_lt hn
  simp only [run, loopState, List.replicate, List.foldl, step, stress_test_worker_step,
    List.getElem?_cons_zero, List.set_cons_zero, if_true, h1]
  by_cases h : (n + 1) % 10 = 0
  · rw [if_pos h]
    have e2 : n - n % 10 + 10 = n + 1 - (n + 1) % 10 := by omega
    have e1 : (n + 1 - (n + 1) % 10) % 2 ^ 64 = n + 1 - (n + 1) % 10 := by omega
    simp only [e2, e1]
  · rw [if_neg h]
    have e2 : n - n % 10 = n + 1 - (n + 1) % 10 := by omega
    simp only [e2]

theorem run_iterations (SIGINT SIGTERM : Int) (n : Nat) (hn : n < 2 ^ 64) :
    run SIGINT SIGTERM (initState [newWorker 0 8]) (List.replicate (4 * n) (Event.worker 0)) =
      loopState n := by
  induction n with
  | zero => simp [run, initState, newWorker, loopState]
  | succ n ih =>
    rw [show 4 * (n + 1) = 4 * n + 4 by ring, List.replicate_add, run_append, ih (by omega)]
    exact loop_iteration SIGINT SIGTERM n hn

theorem wrap_state (SIGINT SIGTERM : Int) :
    run SIGINT SIGTERM (loopState (2 ^ 64 - 1)) (List.replicate 3 (Event.worker 0)) =
      { g_running := true, g_total_iterations := 2 ^ 64 - 6,
        workers := [{ thread_id := 0, fft_size := 8, pc := WorkerPc.batchCheck,
                      local_iterations := 0, round_trips := 2 ^ 64, added := 2 ^ 64 - 6 }],
        reporter := ReporterPc.loopHead, reported := [] } := by
  simp [run, loopState, List.replicate, List.foldl, step, stress_test_worker_step]

theorem fft_size_of_worker_some (i : Nat) : ∃ s, fft_size_of_worker (i : Int) = some s := by
  have hr : toSizeT (i : Int) % fft_sizes.length < 8 := Nat.mod_lt _ (by decide)
  obtain ⟨e, hread, _, _⟩ := fft_sizes_menu _ hr
  exact ⟨_, hread⟩

theorem start_loop (k : Nat) :
    ∃ ts : List Worker,
      forRange (fun i threads => do
        let fft_size ← fft_size_of_worker (i : Int)
        pure (threads ++ [newWorker (i : Int) fft_size])) k [] = some ts ∧
      ts.length = k ∧ ∀ w ∈ ts, Fresh w := by
  induction k with
  | zero => exact ⟨[], rfl, rfl, by simp⟩
  | succ k ih =>
    obtain ⟨ts, h1, h2, h3⟩ := ih
    obtain ⟨sz, hsz⟩ := fft_size_of_worker_some k
    refine ⟨ts ++ [newWorker (k : Int) sz], ?_, ?_, ?_⟩
    · rw [forRange, h1]
      simp only [Option.some_bind, Option.bind_eq_bind, hsz]
      rfl
    · simp [h2]
    · intro w hw
      rcases List.mem_append.mp hw with h | h
      · exact h3 w h
      · have : w = newWorker (k : Int) sz := by simpa using h
        subst this
        exact ⟨rfl, rfl, rfl, rfl⟩

theorem start_workers_spec (n : Int) :
    ∃ ts, start_workers n = some ts ∧ ts.length = n.toNat ∧ ∀ w ∈ ts, Fresh w :=
  start_loop n.toNat

theorem main_started_fresh (r : Int) (h : Nat) (v : Bool) (threads : List Worker)
    (hmain : main r h v = Startup.started threads) : ∀ w ∈ threads, Fresh w := by
  unfold main at hmain
  split_ifs at hmain
  obtain ⟨ts, h1, _, h3⟩ := start_workers_spec (clamp_threads r h)
  simp only [h1, Startup.started.injEq] at hmain
  subst hmain
  exact h3

theorem toInt_of_lt (h : Nat) (hh : h < 2 ^ 31) : toInt h = (h : Int) := by
  unfold toInt
  have : h % 2 ^ 32 = h := Nat.mod_eq_of_lt (by omega)
  rw [this, if_pos hh]

theorem main_started (r : Int) (h : Nat) (hr : 0 < r) :
    ∃ ts, main r h true = Startup.started ts ∧ ts.length = (clamp_threads r h).toNat ∧
      ∀ w ∈ ts, Fresh w := by
  obtain ⟨ts, h1, h2, h3⟩ := start_workers_spec (clamp_threads r h)
  refine ⟨ts, ?_, h2, h3⟩
  unfold main
  rw [if_neg (by omega)]
  simp [h1]

theorem workerInv_bounds (w : Worker) (h : WorkerInv w) :
    w.added ≤ w.round_trips ∧ w.round_trips ≤ w.added + 10 ∧
    (w.pc ≠ WorkerPc.increment → w.pc ≠ WorkerPc.batchCheck → w.round_trips ≤ w.added + 9) ∧
    (w.pc = WorkerPc.finalFlush → w.added = 10 * (w.round_trips / 10)) ∧
    (w.pc = WorkerPc.finished → w.added = w.round_trips ∧ w.local_iterations = w.round_trips) := by
  obtain ⟨tid, fs, pc, loc, rt, add⟩ := w
  cases pc <;> simp only [WorkerInv] at h <;> simp <;> omega

theorem round_trips_le_sum (ws : List Worker) (w : Worker) (hw : w ∈ ws) :
    w.round_trips ≤ sumRoundTrips ws := by
  induction ws with
  | nil => simp at hw
  | cons a t ih =>
    simp only [sumRoundTrips, List.map_cons, List.sum_cons] at ih ⊢
    rcases List.mem_cons.mp hw with h | h
    · subst h; omega
    · have := ih h; omega

theorem sum_bounds (c : Nat) (ws : List Worker)
    (h : ∀ w ∈ ws, w.added ≤ w.round_trips ∧ w.round_trips ≤ w.added + c) :
    sumAdded ws ≤ sumRoundTrips ws ∧ sumRoundTrips ws ≤ sumAdded ws + c * ws.length := by
  induction ws with
  | nil => simp [sumAdded, sumRoundTrips]
  | cons a t ih =>
    have ha := h a (List.mem_cons_self _ _)
    have ht := ih (fun w hw => h w (List.mem_cons_of_mem _ hw))
    simp only [sumAdded, sumRoundTrips, List.map_cons, List.sum_cons, List.length_cons,
      Nat.mul_succ] at ht ⊢
    omega

theorem sums_finished (ws : List Worker)
    (h : ∀ w ∈ ws, w.added = w.round_trips ∧ w.local_iterations = w.round_trips) :
    sumAdded ws = sumRoundTrips ws ∧ sumLocal ws = sumRoundTrips ws := by
  induction ws with
  | nil => simp [sumAdded, sumRoundTrips, sumLocal]
  | cons a t ih =>
    have ha := h a (List.mem_cons_self _ _)
    have ht := ih (fun w hw => h w (List.mem_cons_of_mem _ hw))
    simp only [sumAdded, sumRoundTrips, sumLocal, List.map_cons, List.sum_cons] at ht ⊢
    omega

theorem reach_inv (SIGINT SIGTERM : Int) (r : Int) (h : Nat) (v : Bool) (threads : List Worker)
    (evs : List Event) (hmain : main r h v = Startup.started threads) :
    StateInv (run SIGINT SIGTERM (initState threads) evs) :=
  run_inv SIGINT SIGTERM evs _ (init_inv threads (main_started_fresh r h v threads hmain))

theorem step_flag_false (SIGINT SIGTERM : Int) (s : State) (ev : Event)
    (h : s.g_running = false) : (step SIGINT SIGTERM s ev).g_running = false := by
  cases ev with
  | signal signum =>
    simp only [step, signal_handler]
    split_ifs
    · rfl
    · exact h
  | reporter =>
    simp only [step, display_stats_step]
    cases s.reporter <;> simp only [] <;> (try split_ifs) <;> exact h
  | worker i =>
    simp only [step]
    cases s.workers[i]? <;> exact h

theorem run_flag_false (SIGINT SIGTERM : Int) (evs : List Event) :
    ∀ s : State, s.g_running = false → (run SIGINT SIGTERM s evs).g_running = false := by
  induction evs with
  | nil => intro s h; exact h
  | cons ev evs ih =>
    intro s h
    exact ih _ (step_flag_false SIGINT SIGTERM s ev h)

theorem main_one_worker : main 1 1 true = Startup.started [newWorker 0 8] := by
  decide

/-- The single-worker process just after `local_iterations` has wrapped around:
`2^64` round trips completed, the worker about to test `local_iterations % 10`. -/
theorem run_to_wrap (SIGINT SIGTERM : Int) :
    run SIGINT SIGTERM (initState [newWorker 0 8])
        (List.replicate (4 * (2 ^ 64 - 1)) (Event.worker 0) ++
          List.replicate 3 (Event.worker 0)) =
      { g_running := true, g_total_iterations := 2 ^ 64 - 6,
        workers := [{ thread_id := 0, fft_size := 8, pc := WorkerPc.batchCheck,
                      local_iterations := 0, round_trips := 2 ^ 64, added := 2 ^ 64 - 6 }],
        reporter := ReporterPc.loopHead, reported := [] } := by
  rw [run_append, run_iterations SIGINT SIGTERM (2 ^ 64 - 1) (by norm_num)]
  exact wrap_state SIGINT SIGTERM

end Harness

/-! # Claims about the harness -/

/-- Where the clamp of `main` works as its comment says: for every positive
requested core count `r` and every hardware concurrency value `h` that fits the
`int` variable `max_threads` (`h < 2^31`), `main` called with a passing
self-verification starts exactly `min(r, h)` worker threads. -/
theorem clamp_starts_min_workers (r : Int) (h : Nat) (hr : 0 < r) (hh : h < 2 ^ 31) :
    ∃ threads, main r h true = Startup.started threads ∧
      (threads.length : Int) = min r (h : Int) := by
  obtain ⟨ts, h1, h2, _⟩ := main_started r h hr
  refine ⟨ts, h1, ?_⟩
  rw [h2]
  unfold clamp_threads
  rw [toInt_of_lt h hh]
  simp only []
  split_ifs with hc
  · rw [Int.toNat_of_nonneg (by omega)]; omega
  · rw [Int.toNat_of_nonneg (by omega)]; omega

/-- Four requested cores on an eight-core machine give four workers. -/
theorem clamp_starts_min_workers_witness :
    ∃ threads, main 4 8 true = Startup.started threads ∧
      (threads.length : Int) = min (4 : Int) ((8 : Nat) : Int) :=
  clamp_starts_min_workers 4 8 (by decide) (by decide)

/-- C4 (amended): after clean shutdown the shared counter equals the sum of the
workers' local counts, as long as fewer than `2^64` round trips were completed.
In every state reached from the start-up of `main`: a worker that has left its
loop after fewer than `2^64` round trips has added `10 * (n / 10)` before the final
flush and exactly `n` once finished, where `n` is its number of completed round
trips and equals its `local_iterations`; and when all workers are finished and the
total number of completed round trips is below `2^64`, `g_total_iterations` equals
the sum of the workers' `local_iterations`. -/
theorem final_counter_is_sum_of_local_counts (SIGINT SIGTERM : Int) (r : Int) (h : Nat)
    (v : Bool) (threads : List Worker) (evs : List Event)
    (hmain : main r h v = Startup.started threads) :
    (∀ w ∈ (run SIGINT SIGTERM (initState threads) evs).workers, w.round_trips < 2 ^ 64 →
      (w.pc = WorkerPc.finalFlush → w.added = 10 * (w.round_trips / 10)) ∧
      (w.pc = WorkerPc.finished →
        w.added = w.round_trips ∧ w.local_iterations = w.round_trips)) ∧
    ((∀ w ∈ (run SIGINT SIGTERM (initState threads) evs).workers, w.pc = WorkerPc.finished) →
      sumRoundTrips (run SIGINT SIGTERM (initState threads) evs).workers < 2 ^ 64 →
      (run SIGINT SIGTERM (initState threads) evs).g_total_iterations =
          sumLocal (run SIGINT SIGTERM (initState threads) evs).workers ∧
        sumLocal (run SIGINT SIGTERM (initState threads) evs).workers =
          sumRoundTrips (run SIGINT SIGTERM (initState threads) evs).workers) := by
  have hinv := reach_inv SIGINT SIGTERM r h v threads evs hmain
  constructor
  · intro w hw hrt
    have hb := workerInv_bounds w (hinv.2 w hw hrt)
    exact ⟨hb.2.2.2.1, hb.2.2.2.2⟩
  · intro hfin htot
    have hall : ∀ w ∈ (run SIGINT SIGTERM (initState threads) evs).workers,
        w.added = w.round_trips ∧ w.local_iterations = w.round_trips := by
      intro w hw
      have hrt : w.round_trips < 2 ^ 64 :=
        lt_of_le_of_lt (round_trips_le_sum _ w hw) htot
      exact (workerInv_bounds w (hinv.2 w hw hrt)).2.2.2.2 (hfin w hw)
    obtain ⟨e1, e2⟩ := sums_finished _ hall
    refine ⟨?_, e2⟩
    rw [hinv.1, e1, e2, Nat.mod_eq_of_lt htot]

/-- Witness of C4: one worker started by `main 1 1 true`, twelve round trips,
then `SIGINT` (signal 2) and the worker's exit. -/
theorem final_counter_is_sum_of_local_counts_witness :
    main 1 1 true = Startup.started [newWorker 0 8] ∧
    ((∀ w ∈ (run 2 15 (initState [newWorker 0 8])
          (List.replicate 48 (Event.worker 0) ++
            [Event.signal 2, Event.worker 0, Event.worker 0])).workers,
        w.round_trips < 2 ^ 64 →
      (w.pc = WorkerPc.finalFlush → w.added = 10 * (w.round_trips / 10)) ∧
      (w.pc = WorkerPc.finished →
        w.added = w.round_trips ∧ w.local_iterations = w.round_trips)) ∧
    ((∀ w ∈ (run 2 15 (initState [newWorker 0 8])
          (List.replicate 48 (Event.worker 0) ++
            [Event.signal 2, Event.worker 0, Event.worker 0])).workers,
        w.pc = WorkerPc.finished) →
      sumRoundTrips (run 2 15 (initState [newWorker 0 8])
          (List.replicate 48 (Event.worker 0) ++
            [Event.signal 2, Event.worker 0, Event.worker 0])).workers < 2 ^ 64 →
      (run 2 15 (initState [newWorker 0 8])
          (List.replicate 48 (Event.worker 0) ++
            [Event.signal 2, Event.worker 0, Event.worker 0])).g_total_iterations =
          sumLocal (run 2 15 (initState [newWorker 0 8])
            (List.replicate 48 (Event.worker 0) ++
              [Event.signal 2, Event.worker 0, Event.worker 0])).workers ∧
        sumLocal (run 2 15 (initState [newWorker 0 8])
            (List.replicate 48 (Event.worker 0) ++
              [Event.signal 2, Event.worker 0, Event.worker 0])).workers =
          sumRoundTrips (run 2 15 (initState [newWorker 0 8])
            (List.replicate 48 (Event.worker 0) ++
              [Event.signal 2, Event.worker 0, Event.worker 0])).workers)) :=
  ⟨by decide, final_counter_is_sum_of_local_counts 2 15 1 1 true [newWorker 0 8]
    (List.replicate 48 (Event.worker 0) ++ [Event.signal 2, Event.worker 0, Event.worker 0])
    (by decide)⟩

/-- Counterexample to C4 as stated (`for every n >= 0`): a single worker that
completes `n = 2^64` round trips and then observes the flag as false has added
`2^64 + 4`, not `2^64`; its `local_iterations` has wrapped to 0 and the final value
of `g_total_iterations` is 4, not the sum of the local counts. -/
theorem counter_differs_after_wraparound :
    main 1 1 true = Startup.started [newWorker 0 8] ∧
    ∃ evs : List Event,
      run 2 15 (initState [newWorker 0 8]) evs =
        { g_running := false, g_total_iterations := 4,
          workers := [{ thread_id := 0, fft_size := 8, pc := WorkerPc.finished,
                        local_iterations := 0, round_trips := 2 ^ 64, added := 2 ^ 64 + 4 }],
          reporter := ReporterPc.loopHead, reported := [] } := by
  refine ⟨main_one_worker, (List.replicate (4 * (2 ^ 64 - 1)) (Event.worker 0) ++
      List.replicate 3 (Event.worker 0)) ++
      [Event.worker 0, Event.signal 2, Event.worker 0, Event.worker 0], ?_⟩
  rw [run_append, run_to_wrap]
  simp [run, step, stress_test_worker_step, signal_handler]

/-- C5 (amended): batching bound. In every state reached from the start-up of
`main`, for every worker that has completed fewer than `2^64` round trips: the
amount it has added to the shared counter is at most its number of completed round
trips and lags it by at most 10, and by at most 9 whenever the worker is not
between the end of a round trip and the batch update that follows it (program
points `increment` and `batchCheck`). Hence, while the total number of completed
round trips is below `2^64`, `g_total_iterations` is at most that total and lags it
by at most 10 per worker, and by at most 9 per worker when no worker is at one of
those two program points. -/
theorem batching_bound (SIGINT SIGTERM : Int) (r : Int) (h : Nat) (v : Bool)
    (threads : List Worker) (evs : List Event)
    (hmain : main r h v = Startup.started threads) :
    (∀ w ∈ (run SIGINT SIGTERM (initState threads) evs).workers, w.round_trips < 2 ^ 64 →
      w.added ≤ w.round_trips ∧ w.round_trips ≤ w.added + 10 ∧
      (w.pc ≠ WorkerPc.increment → w.pc ≠ WorkerPc.batchCheck →
        w.round_trips ≤ w.added + 9)) ∧
    (sumRoundTrips (run SIGINT SIGTERM (initState threads) evs).workers < 2 ^ 64 →
      (run SIGINT SIGTERM (initState threads) evs).g_total_iterations ≤
          sumRoundTrips (run SIGINT SIGTERM (initState threads) evs).workers ∧
        sumRoundTrips (run SIGINT SIGTERM (initState threads) evs).workers ≤
          (run SIGINT SIGTERM (initState threads) evs).g_total_iterations +
            10 * (run SIGINT SIGTERM (initState threads) evs).workers.length) ∧
    (sumRoundTrips (run SIGINT SIGTERM (initState threads) evs).workers < 2 ^ 64 →
      (∀ w ∈ (run SIGINT SIGTERM (initState threads) evs).workers,
        w.pc ≠ WorkerPc.increment ∧ w.pc ≠ WorkerPc.batchCheck) →
      sumRoundTrips (run SIGINT SIGTERM (initState threads) evs).workers ≤
        (run SIGINT SIGTERM (initState threads) evs).g_total_iterations +
          9 * (run SIGINT SIGTERM (initState threads) evs).workers.length) := by
  have hinv := reach_inv SIGINT SIGTERM r h v threads evs hmain
  refine ⟨?_, ?_, ?_⟩
  · intro w hw hrt
    have hb := workerInv_bounds w (hinv.2 w hw hrt)
    exact ⟨hb.1, hb.2.1, hb.2.2.1⟩
  rotate_left
  · intro htot hpc
    have hall : ∀ w ∈ (run SIGINT SIGTERM (initState threads) evs).workers,
        w.added ≤ w.round_trips ∧ w.round_trips ≤ w.added + 9 := by
      intro w hw
      have hrt : w.round_trips < 2 ^ 64 :=
        lt_of_le_of_lt (round_trips_le_sum _ w hw) htot
      have hb := workerInv_bounds w (hinv.2 w hw hrt)
      exact ⟨hb.1, hb.2.2.1 (hpc w hw).1 (hpc w hw).2⟩
    obtain ⟨b1, b2⟩ := sum_bounds 9 _ hall
    have hlt : sumAdded (run SIGINT SIGTERM (initState threads) evs).workers < 2 ^ 64 :=
      lt_of_le_of_lt b1 htot
    rw [hinv.1, Nat.mod_eq_of_lt hlt]
    exact b2
  · intro htot
    have hall : ∀ w ∈ (run SIGINT SIGTERM (initState threads) evs).workers,
        w.added ≤ w.round_trips ∧ w.round_trips ≤ w.added + 10 := by
      intro w hw
      have hrt : w.round_trips < 2 ^ 64 :=
        lt_of_le_of_lt (round_trips_le_sum _ w hw) htot
      have hb := workerInv_bounds w (hinv.2 w hw hrt)
      exact ⟨hb.1, hb.2.1⟩
    obtain ⟨b1, b2⟩ := sum_bounds 10 _ hall
    have hlt : sumAdded (run SIGINT SIGTERM (initState threads) evs).workers < 2 ^ 64 :=
      lt_of_le_of_lt b1 htot
    rw [hinv.1, Nat.mod_eq_of_lt hlt]
    exact ⟨b1, b2⟩

/-- Witness of C5: one worker started by `main 1 1 true`, after 39 statements. -/
theorem batching_bound_witness :
    main 1 1 true = Startup.started [newWorker 0 8] ∧
    ((∀ w ∈ (run 2 15 (initState [newWorker 0 8])
          (List.replicate 39 (Event.worker 0))).workers, w.round_trips < 2 ^ 64 →
      w.added ≤ w.round_trips ∧ w.round_trips ≤ w.added + 10 ∧
      (w.pc ≠ WorkerPc.increment → w.pc ≠ WorkerPc.batchCheck →
        w.round_trips ≤ w.added + 9)) ∧
    (sumRoundTrips (run 2 15 (initState [newWorker 0 8])
          (List.replicate 39 (Event.worker 0))).workers < 2 ^ 64 →
      (run 2 15 (initState [newWorker 0 8])
          (List.replicate 39 (Event.worker 0))).g_total_iterations ≤
          sumRoundTrips (run 2 15 (initState [newWorker 0 8])
            (List.replicate 39 (Event.worker 0))).workers ∧
        sumRoundTrips (run 2 15 (initState [newWorker 0 8])
            (List.replicate 39 (Event.worker 0))).workers ≤
          (run 2 15 (initState [newWorker 0 8])
              (List.replicate 39 (Event.worker 0))).g_total_iterations +
            10 * (run 2 15 (initState [newWorker 0 8])
              (List.replicate 39 (Event.worker 0))).workers.length) ∧
    (sumRoundTrips (run 2 15 (initState [newWorker 0 8])
          (List.replicate 39 (Event.worker 0))).workers < 2 ^ 64 →
      (∀ w ∈ (run 2 15 (initState [newWorker 0 8])
          (List.replicate 39 (Event.worker 0))).workers,
        w.pc ≠ WorkerPc.increment ∧ w.pc ≠ WorkerPc.batchCheck) →
      sumRoundTrips (run 2 15 (initState [newWorker 0 8])
          (List.replicate 39 (Event.worker 0))).workers ≤
        (run 2 15 (initState [newWorker 0 8])
            (List.replicate 39 (Event.worker 0))).g_total_iterations +
          9 * (run 2 15 (initState [newWorker 0 8])
            (List.replicate 39 (Event.worker 0))).workers.length)) :=
  ⟨by decide, batching_bound 2 15 1 1 true [newWorker 0 8]
    (List.replicate 39 (Event.worker 0)) (by decide)⟩

/-- Counterexample to C5 as stated (lag of at most 9 at every reachable state,
for any number of round trips). First, after 39 statements of a single worker the
tenth round trip is complete and `local_iterations` is 10, but the batch update has
not run yet: the worker has added 0 and the shared counter is 0, a lag of 10.
Second, once `local_iterations` has wrapped around (after `2^64` round trips) the
worker has added `2^64 + 4`, more than its number of completed round trips. -/
theorem lag_of_ten_is_reachable :
    main 1 1 true = Startup.started [newWorker 0 8] ∧
    (run 2 15 (initState [newWorker 0 8]) (List.replicate 39 (Event.worker 0)) =
      { g_running := true, g_total_iterations := 0,
        workers := [{ thread_id := 0, fft_size := 8, pc := WorkerPc.batchCheck,
                      local_iterations := 10, round_trips := 10, added := 0 }],
        reporter := ReporterPc.loopHead, reported := [] }) ∧
    (∃ evs : List Event,
      run 2 15 (initState [newWorker 0 8]) evs =
        { g_running := true, g_total_iterations := 4,
          workers := [{ thread_id := 0, fft_size := 8, pc := WorkerPc.loopHead,
                        local_iterations := 0, round_trips := 2 ^ 64, added := 2 ^ 64 + 4 }],
          reporter := ReporterPc.loopHead, reported := [] }) := by
  refine ⟨main_one_worker, ?_, ?_⟩
  · rw [show 39 = 4 * 9 + 3 by norm_num, List.replicate_add, run_append,
      run_iterations 2 15 9 (by norm_num)]
    simp [run, loopState, step, stress_test_worker_step]
  · refine ⟨(List.replicate (4 * (2 ^ 64 - 1)) (Event.worker 0) ++
      List.replicate 3 (Event.worker 0)) ++ [Event.worker 0], ?_⟩
    rw [run_append, run_to_wrap]
    simp [run, step, stress_test_worker_step]

/-- C6 (amended): the shared counter is non-decreasing as long as it does not wrap
around. Every step of the process leaves `g_total_iterations` unchanged, or is the
batched `+= 10` of a worker whose `local_iterations` is a multiple of 10, or is the
final `+= local_iterations % 10` of a worker, both modulo `2^64`; and when the
value before the step is below `2^64 - 10`, the value after is greater or equal. -/
theorem counter_non_decreasing_below_wrap (SIGINT SIGTERM : Int) (s : State) (ev : Event)
    (hg : s.g_total_iterations + 10 < 2 ^ 64) :
    s.g_total_iterations ≤ (step SIGINT SIGTERM s ev).g_total_iterations ∧
    ((step SIGINT SIGTERM s ev).g_total_iterations = s.g_total_iterations ∨
      ∃ i w, ev = Event.worker i ∧ s.workers[i]? = some w ∧
        ((w.pc = WorkerPc.batchCheck ∧ w.local_iterations % 10 = 0 ∧
            (step SIGINT SIGTERM s ev).g_total_iterations =
              (s.g_total_iterations + 10) % 2 ^ 64) ∨
          (w.pc = WorkerPc.finalFlush ∧
            (step SIGINT SIGTERM s ev).g_total_iterations =
              (s.g_total_iterations + w.local_iterations % 10) % 2 ^ 64))) := by
  cases ev with
  | signal signum =>
    have e : (step SIGINT SIGTERM s (Event.signal signum)).g_total_iterations =
        s.g_total_iterations := by
      simp only [step, signal_handler]
      split_ifs <;> rfl
    exact ⟨by rw [e], Or.inl e⟩
  | reporter =>
    have e : (step SIGINT SIGTERM s Event.reporter).g_total_iterations =
        s.g_total_iterations := by
      simp only [step, display_stats_step]
      cases s.reporter
      all_goals simp only []
      all_goals try split_ifs
      all_goals rfl
    exact ⟨by rw [e], Or.inl e⟩
  | worker i =>
    simp only [step]
    cases hw : s.workers[i]? with
    | none => exact ⟨le_refl _, Or.inl rfl⟩
    | some w =>
      simp only []
      obtain ⟨tid, fs, pc, loc, rt, add⟩ := w
      cases pc <;> simp only [stress_test_worker_step] <;> (try split_ifs)
      all_goals first
        | exact ⟨le_refl _, Or.inl rfl⟩
        | exact ⟨Nat.le_refl _, Or.inl (by simp)⟩
        | exact ⟨by omega, Or.inr ⟨i, _, rfl, hw, Or.inl ⟨rfl, by assumption, rfl⟩⟩⟩
        | exact ⟨by omega, Or.inr ⟨i, _, rfl, hw, Or.inr ⟨rfl, rfl⟩⟩⟩

/-- Witness of C6: the batched update of a worker whose local count is 10. -/
theorem counter_non_decreasing_below_wrap_witness :
    (0 : Nat) + 10 < 2 ^ 64 ∧
    (0 : Nat) ≤ (step 2 15
      { g_running := true, g_total_iterations := 0,
        workers := [{ thread_id := 0, fft_size := 8, pc := WorkerPc.batchCheck,
                      local_iterations := 10, round_trips := 10, added := 0 }],
        reporter := ReporterPc.loopHead, reported := [] } (Event.worker 0)).g_total_iterations :=
  ⟨by decide, (counter_non_decreasing_below_wrap 2 15
      { g_running := true, g_total_iterations := 0,
        workers := [{ thread_id := 0, fft_size := 8, pc := WorkerPc.batchCheck,
                      local_iterations := 10, round_trips := 10, added := 0 }],
        reporter := ReporterPc.loopHead, reported := [] } (Event.worker 0) (by decide)).1⟩

/-- Counterexample to C6 as stated: in the single-worker process, after `2^64`
round trips the counter holds `2^64 - 6`, and the next statement of the worker, the
batched `+= 10` on the `uint64`, leaves it at 4: the counter has decreased. -/
theorem counter_decreases_on_wraparound :
    main 1 1 true = Startup.started [newWorker 0 8] ∧
    ∃ evs : List Event,
      (run 2 15 (initState [newWorker 0 8]) evs).g_total_iterations = 2 ^ 64 - 6 ∧
      (step 2 15 (run 2 15 (initState [newWorker 0 8]) evs)
        (Event.worker 0)).g_total_iterations = 4 ∧
      (step 2 15 (run 2 15 (initState [newWorker 0 8]) evs)
        (Event.worker 0)).g_total_iterations <
          (run 2 15 (initState [newWorker 0 8]) evs).g_total_iterations := by
  refine ⟨main_one_worker, List.replicate (4 * (2 ^ 64 - 1)) (Event.worker 0) ++
      List.replicate 3 (Event.worker 0), ?_⟩
  rw [run_to_wrap]
  simp [step, stress_test_worker_step]

/-- C7: the running flag starts true and never reverts. `g_running` is true in the
initial state; once it is false it is false after any sequence of events (signals,
worker statements, reporter steps); `signal_handler` sets it to false when the
signal is `SIGINT` or `SIGTERM` and leaves it unchanged for every other signal
number; worker and reporter steps leave it unchanged. -/
theorem running_flag_never_reverts (SIGINT SIGTERM : Int) :
    (∀ threads, (initState threads).g_running = true) ∧
    (∀ s evs, s.g_running = false → (run SIGINT SIGTERM s evs).g_running = false) ∧
    (∀ s signum, (signum = SIGINT ∨ signum = SIGTERM) →
      (step SIGINT SIGTERM s (Event.signal signum)).g_running = false) ∧
    (∀ s signum, ¬ (signum = SIGINT ∨ signum = SIGTERM) →
      step SIGINT SIGTERM s (Event.signal signum) = s) ∧
    (∀ s i, (step SIGINT SIGTERM s (Event.worker i)).g_running = s.g_running) ∧
    (∀ s, (step SIGINT SIGTERM s Event.reporter).g_running = s.g_running) := by
  refine ⟨fun _ => rfl, fun s evs h => run_flag_false SIGINT SIGTERM evs s h, ?_, ?_, ?_, ?_⟩
  · intro s signum h
    simp only [step, signal_handler, if_pos h]
  · intro s signum h
    simp only [step, signal_handler, if_neg h]
  · intro s i
    simp only [step]
    cases s.workers[i]? <;> rfl
  · intro s
    simp only [step, display_stats_step]
    cases s.reporter
    all_goals simp only []
    all_goals try split_ifs
    all_goals rfl

/-- Witness of C7: from a state whose flag is false, a worker statement, a signal
other than `SIGINT`/`SIGTERM` (numbers 2 and 15 here) and a reporter step leave the
flag false. -/
theorem running_flag_never_reverts_witness :
    (run 2 15
      { g_running := false, g_total_iterations := 0, workers := [newWorker 0 8],
        reporter := ReporterPc.loopHead, reported := [] }
      [Event.worker 0, Event.signal 3, Event.reporter]).g_running = false :=
  (running_flag_never_reverts 2 15).2.1 _ _ rfl

end MyPrime
